import Mathlib

/-
Verification of the incremental streamed-response assembler of the
Market-Intelligence-Engine repository (src/src/pages/Chat.tsx, handleSend).
The embedding models text at the character level (the TextDecoder of the
source reassembles multi-byte sequences; chunks arrive as already-decoded
text).  Lists of characters stand for JavaScript strings.
-/

namespace MIE

/-! ## Basic string utilities (JavaScript string operations used by the source) -/

/-- Split a character list at the first newline, if any: the part before the
newline and the part after it.  Models `textBuffer.indexOf('\n')` together
with the two `slice` calls of Chat.tsx lines 145-147. -/
def splitFirstLine : List Char → Option (List Char × List Char)
  | [] => none
  | c :: cs =>
    if c = '\n' then some ([], cs)
    else
      match splitFirstLine cs with
      | none => none
      | some (l, r) => some (c :: l, r)

/-- Strip one trailing carriage return, as in Chat.tsx line 148
`if (line.endsWith('\r')) line = line.slice(0, -1)`. -/
def stripCR (l : List Char) : List Char :=
  if l.getLast? = some '\r' then l.dropLast else l

/-- Whitespace characters removed by the JavaScript `String.prototype.trim`
(the common members of the WhiteSpace and LineTerminator productions). -/
def isJsWs (c : Char) : Bool :=
  c == ' ' || c == '\t' || c == '\n' || c == '\r' || c == '\x0b' || c == '\x0c' ||
  c == '\u00A0' || c == '\uFEFF'

/-- Remove trailing JavaScript whitespace. -/
def trimRight (l : List Char) : List Char :=
  (l.reverse.dropWhile isJsWs).reverse

/-- Model of the JavaScript `trim()`: remove leading and trailing whitespace. -/
def jsTrim (l : List Char) : List Char :=
  (trimRight l).dropWhile isJsWs

/-- Boolean test that `p` is an initial segment of `s`; models
`s.startsWith(p)`. -/
def startsWithL (p s : List Char) : Bool :=
  decide (s.take p.length = p)

/-! ## JSON values and a model of `JSON.parse`

The payload of a data line is parsed with the built-in `JSON.parse`.  The
grammar implemented below is the one of ECMA-404: `null`, booleans, numbers
(no leading zeros, optional fraction and exponent), strings with escape
sequences, arrays and objects.  Numbers are kept as their digit sequences,
which suffices for the only two observations the source makes of a parsed
value: truthiness and string coercion. -/

inductive JsonValue where
  | null
  | bool (b : Bool)
  | num (neg : Bool) (ip : List Char) (fp : List Char) (eneg : Bool) (ed : List Char)
  | str (s : List Char)
  | arr (elems : List JsonValue)
  | obj (membs : List (List Char × JsonValue))

/-- Whitespace accepted between JSON tokens (per ECMA-404). -/
def isJsonWs (c : Char) : Bool :=
  c == ' ' || c == '\t' || c == '\n' || c == '\r'

def skipWs (s : List Char) : List Char := s.dropWhile isJsonWs

def isHexDigit (c : Char) : Bool :=
  c.isDigit || ('a' ≤ c && c ≤ 'f') || ('A' ≤ c && c ≤ 'F')

def hexVal (c : Char) : Nat :=
  if c.isDigit then c.toNat - '0'.toNat
  else if 'a' ≤ c && c ≤ 'f' then c.toNat - 'a'.toNat + 10
  else c.toNat - 'A'.toNat + 10

/-- Decode a string body after the opening quote.  Returns the decoded
content and the remainder after the closing quote.  Control characters are
rejected, escape sequences are decoded; a `\uXXXX` high surrogate followed
by a low surrogate is combined into one scalar (astral characters of
JavaScript strings are single code points here). -/
def parseStringBody : Nat → List Char → Option (List Char × List Char)
  | 0, _ => none
  | _, [] => none
  | fuel + 1, c :: cs =>
    if c = '"' then some ([], cs)
    else if c = '\\' then
      match cs with
      | [] => none
      | e :: cs' =>
        if e = '"' ∨ e = '\\' ∨ e = '/' then
          match parseStringBody fuel cs' with
          | none => none
          | some (content, rest) => some (e :: content, rest)
        else if e = 'b' then
          match parseStringBody fuel cs' with
          | none => none
          | some (content, rest) => some ('\x08' :: content, rest)
        else if e = 'f' then
          match parseStringBody fuel cs' with
          | none => none
          | some (content, rest) => some ('\x0c' :: content, rest)
        else if e = 'n' then
          match parseStringBody fuel cs' with
          | none => none
          | some (content, rest) => some ('\n' :: content, rest)
        else if e = 'r' then
          match parseStringBody fuel cs' with
          | none => none
          | some (content, rest) => some ('\r' :: content, rest)
        else if e = 't' then
          match parseStringBody fuel cs' with
          | none => none
          | some (content, rest) => some ('\t' :: content, rest)
        else if e = 'u' then
          match cs' with
          | h1 :: h2 :: h3 :: h4 :: cs'' =>
            if isHexDigit h1 && isHexDigit h2 && isHexDigit h3 && isHexDigit h4 then
              let n := ((hexVal h1 * 16 + hexVal h2) * 16 + hexVal h3) * 16 + hexVal h4
              if 0xD800 ≤ n ∧ n ≤ 0xDBFF then
                match cs'' with
                | '\\' :: 'u' :: g1 :: g2 :: g3 :: g4 :: cs3 =>
                  if isHexDigit g1 && isHexDigit g2 && isHexDigit g3 && isHexDigit g4 then
                    let m := ((hexVal g1 * 16 + hexVal g2) * 16 + hexVal g3) * 16 + hexVal g4
                    if 0xDC00 ≤ m ∧ m ≤ 0xDFFF then
                      match parseStringBody fuel cs3 with
                      | none => none
                      | some (content, rest) =>
                        some (Char.ofNat (0x10000 + (n - 0xD800) * 0x400 + (m - 0xDC00)) :: content, rest)
                    else
                      match parseStringBody fuel cs'' with
                      | none => none
                      | some (content, rest) => some (Char.ofNat n :: content, rest)
                  else
                    match parseStringBody fuel cs'' with
                    | none => none
                    | some (content, rest) => some (Char.ofNat n :: content, rest)
                | _ =>
                  match parseStringBody fuel cs'' with
                  | none => none
                  | some (content, rest) => some (Char.ofNat n :: content, rest)
              else
                match parseStringBody fuel cs'' with
                | none => none
                | some (content, rest) => some (Char.ofNat n :: content, rest)
            else none
          | _ => none
        else none
    else if c.toNat < 0x20 then none
    else
      match parseStringBody fuel cs with
      | none => none
      | some (content, rest) => some (c :: content, rest)

/-- Parse the digits of a JSON number component. -/
def spanDigits (s : List Char) : List Char × List Char :=
  (s.takeWhile Char.isDigit, s.dropWhile Char.isDigit)

/-- Parse the exponent part of a JSON number, after the `e` or `E`. -/
def parseExpo (neg : Bool) (ip fp : List Char) (t : List Char) : Option (JsonValue × List Char) :=
  let (eneg, t1) :=
    match t with
    | '+' :: u => (false, u)
    | '-' :: u => (true, u)
    | _ => (false, t)
  let (ed, rest) := spanDigits t1
  if ed.isEmpty then none else some (JsonValue.num neg ip fp eneg ed, rest)

/-- Parse the optional fraction and exponent of a JSON number whose integer
part was already read. -/
def parseFracExpo (neg : Bool) (ip : List Char) (s : List Char) : Option (JsonValue × List Char) :=
  match s with
  | '.' :: t =>
    let (ds, rest) := spanDigits t
    if ds.isEmpty then none
    else
      match rest with
      | 'e' :: t2 => parseExpo neg ip ds t2
      | 'E' :: t2 => parseExpo neg ip ds t2
      | _ => some (JsonValue.num neg ip ds false [], rest)
  | 'e' :: t => parseExpo neg ip [] t
  | 'E' :: t => parseExpo neg ip [] t
  | _ => some (JsonValue.num neg ip [] false [], s)

/-- Parse a JSON number after an optional leading minus sign has been
consumed.  Leading zeros are rejected as in `JSON.parse`. -/
def parseNumAfterSign (neg : Bool) (s : List Char) : Option (JsonValue × List Char) :=
  match s with
  | [] => none
  | c :: cs =>
    if c = '0' then
      parseFracExpo neg ['0'] cs
    else if c.isDigit then
      let (ds, rest) := spanDigits cs
      parseFracExpo neg (c :: ds) rest
    else none

/-- Match a fixed keyword. -/
def expectL (p s : List Char) : Option (List Char) :=
  if s.take p.length = p then some (s.drop p.length) else none

mutual

/-- Parse one JSON value (leading whitespace allowed); fuel bounds the
recursion depth and is chosen generously by `jsonParse`. -/
def parseValue : Nat → List Char → Option (JsonValue × List Char)
  | 0, _ => none
  | fuel + 1, s =>
    match skipWs s with
    | [] => none
    | c :: cs =>
      if c = '"' then
        match parseStringBody (cs.length + 1) cs with
        | none => none
        | some (content, rest) => some (JsonValue.str content, rest)
      else if c = '\x7b' then
        match skipWs cs with
        | '\x7d' :: rest => some (JsonValue.obj [], rest)
        | other => parseMembers fuel other
      else if c = '[' then
        match skipWs cs with
        | ']' :: rest => some (JsonValue.arr [], rest)
        | other => parseElems fuel other
      else if c = 't' then
        match expectL ['r', 'u', 'e'] cs with
        | none => none
        | some rest => some (JsonValue.bool true, rest)
      else if c = 'f' then
        match expectL ['a', 'l', 's', 'e'] cs with
        | none => none
        | some rest => some (JsonValue.bool false, rest)
      else if c = 'n' then
        match expectL ['u', 'l', 'l'] cs with
        | none => none
        | some rest => some (JsonValue.null, rest)
      else if c = '-' then parseNumAfterSign true cs
      else if c.isDigit then parseNumAfterSign false (c :: cs)
      else none

/-- Parse the members of an object after at least one member is known to
follow (the closing brace of an empty object was already checked). -/
def parseMembers : Nat → List Char → Option (JsonValue × List Char)
  | 0, _ => none
  | fuel + 1, s =>
    match skipWs s with
    | '"' :: cs =>
      match parseStringBody (cs.length + 1) cs with
      | none => none
      | some (key, afterKey) =>
        match skipWs afterKey with
        | ':' :: afterColon =>
          match parseValue fuel afterColon with
          | none => none
          | some (v, afterVal) =>
            match skipWs afterVal with
            | ',' :: nextMember =>
              match parseMembers fuel nextMember with
              | some (JsonValue.obj ms, rest) => some (JsonValue.obj ((key, v) :: ms), rest)
              | _ => none
            | '\x7d' :: rest => some (JsonValue.obj [(key, v)], rest)
            | _ => none
        | _ => none
    | _ => none

/-- Parse the elements of an array after at least one element is known to
follow. -/
def parseElems : Nat → List Char → Option (JsonValue × List Char)
  | 0, _ => none
  | fuel + 1, s =>
    match parseValue fuel s with
    | none => none
    | some (v, afterVal) =>
      match skipWs afterVal with
      | ',' :: nextElem =>
        match parseElems fuel nextElem with
        | some (JsonValue.arr xs, rest) => some (JsonValue.arr (v :: xs), rest)
        | _ => none
      | ']' :: rest => some (JsonValue.arr [v], rest)
      | _ => none

end

/-- Model of `JSON.parse(s)`: the whole input must be one JSON value
surrounded by optional whitespace; `none` models a thrown `SyntaxError`.
The fuel `2 * s.length + 8` exceeds the possible recursion depth because
every two nested calls consume at least one input character. -/
def jsonParse (s : List Char) : Option JsonValue :=
  match parseValue (2 * s.length + 8) s with
  | none => none
  | some (v, rest) => if skipWs rest = [] then some v else none

/-! ## Property access, truthiness and string coercion -/

/-- Lookup of an object member; with duplicate keys `JSON.parse` keeps the
last occurrence, which this lookup returns. -/
def lookupLastMember (k : List Char) : List (List Char × JsonValue) → Option JsonValue
  | [] => none
  | (k', v) :: rest =>
    match lookupLastMember k rest with
    | some r => some r
    | none => if k' = k then some v else none

/-- Property read `v.k` for the non-numeric keys used by the source
(`choices`, `delta`, `content`): objects are looked up, every other value
yields `undefined` (`none`).  The `null` receiver, which throws, is handled
by the caller. -/
def getMember (v : JsonValue) (k : List Char) : Option JsonValue :=
  match v with
  | JsonValue.obj ms => lookupLastMember k ms
  | _ => none

/-- Index read `v[0]`: first array element, member `"0"` of an object, first
character of a string, otherwise `undefined`. -/
def getIndexZero (v : JsonValue) : Option JsonValue :=
  match v with
  | JsonValue.arr (x :: _) => some x
  | JsonValue.arr [] => none
  | JsonValue.obj ms => lookupLastMember ['0'] ms
  | JsonValue.str (c :: _) => some (JsonValue.str [c])
  | JsonValue.str [] => none
  | _ => none

/-- Optional chaining `x?.…`: `null` and `undefined` short-circuit to
`undefined`, any other value is accessed. -/
def optChain (x : Option JsonValue) (f : JsonValue → Option JsonValue) : Option JsonValue :=
  match x with
  | none => none
  | some JsonValue.null => none
  | some v => f v

/-- Model of `parsed.choices?.[0]?.delta?.content` (Chat.tsx line 155).
The outer `none` models the `TypeError` thrown when `parsed` is `null`
(the only JSON value whose property read throws); the inner option is the
resulting content value, `none` standing for `undefined`. -/
def extractContent (parsed : JsonValue) : Option (Option JsonValue) :=
  match parsed with
  | JsonValue.null => none
  | v =>
    let a := getMember v ['c', 'h', 'o', 'i', 'c', 'e', 's']
    let b := optChain a getIndexZero
    let c := optChain b (fun x => getMember x ['d', 'e', 'l', 't', 'a'])
    some (optChain c (fun x => getMember x ['c', 'o', 'n', 't', 'e', 'n', 't']))

/-- JavaScript truthiness of a JSON value: `null`, `false`, numeric zero and
the empty string are falsy, everything else is truthy. -/
def jsTruthy (v : JsonValue) : Bool :=
  match v with
  | JsonValue.null => false
  | JsonValue.bool b => b
  | JsonValue.num _ ip fp _ _ => !((ip ++ fp).all (· == '0'))
  | JsonValue.str s => !s.isEmpty
  | JsonValue.arr _ => true
  | JsonValue.obj _ => true

mutual

/-- String coercion `String(v)` as used by `assistantSoFar += content` and
`new Error(x)`.  Strings are themselves, booleans and null their keywords,
objects become `[object Object]`, arrays join their elements with commas
(null elements rendered empty, the Array.prototype.toString semantics).
Number formatting reconstructs the parsed components; the normalisation
the JavaScript engine applies to exotic numerals is approximated, which is
inconsequential here because no claim involves a numeric delta. -/
def jsToString : JsonValue → List Char
  | JsonValue.null => ['n', 'u', 'l', 'l']
  | JsonValue.bool b => if b then ['t', 'r', 'u', 'e'] else ['f', 'a', 'l', 's', 'e']
  | JsonValue.num neg ip fp eneg ed =>
    (if neg then ['-'] else []) ++ ip ++
    (if fp.isEmpty then [] else '.' :: fp) ++
    (if ed.isEmpty then [] else 'e' :: ((if eneg then ['-'] else []) ++ ed))
  | JsonValue.str s => s
  | JsonValue.arr xs => jsArrJoin xs
  | JsonValue.obj _ => ['[', 'o', 'b', 'j', 'e', 'c', 't', ' ', 'O', 'b', 'j', 'e', 'c', 't', ']']

/-- Array-to-string join: elements separated by commas, null elements
rendered empty. -/
def jsArrJoin : List JsonValue → List Char
  | [] => []
  | [JsonValue.null] => []
  | [x] => jsToString x
  | JsonValue.null :: xs => ',' :: jsArrJoin xs
  | x :: xs => jsToString x ++ ',' :: jsArrJoin xs

end

/-! ## The transcript data model (Chat.tsx `Message`) -/

inductive Role where
  | user
  | assistant
deriving DecidableEq, BEq, Repr

structure Message where
  id : List Char
  role : Role
  content : List Char
deriving DecidableEq, Repr

/-- Accumulated session state: the transcript shown to the observer and the
`assistantSoFar` accumulator of `handleSend`. -/
structure StreamAcc where
  msgs : List Message
  soFar : List Char
deriving DecidableEq, Repr

def sData : List Char := ['d', 'a', 't', 'a', ':', ' ']

def sDone : List Char := ['[', 'D', 'O', 'N', 'E', ']']

def aiPre : List Char := ['a', 'i', '-']

def aiIdOf (nonce : List Char) : List Char := aiPre ++ nonce

def errIdOf (nonce : List Char) : List Char := ['e', 'r', 'r', '-'] ++ nonce

/-- Replace the content of the last message, keeping id, role and position;
models `prev.map((m, i) => i === prev.length - 1 ? ... : m)` of line 161. -/
def updateLast : List Message → List Char → List Message
  | [], _ => []
  | [m], c => [⟨m.id, m.role, c⟩]
  | m :: ms, c => m :: updateLast ms c

/-- Test of line 160: the last message is an open assistant turn of the
current session. -/
def isOpenTurn (m : Message) : Bool :=
  (m.role == Role.assistant) && startsWithL aiPre m.id

/-- The `setMessages` updater of lines 158-164: extend the open assistant
turn in place, or append a fresh `ai-` turn. -/
def reconcileMsgs (nonce : List Char) (msgs : List Message) (s : List Char) : List Message :=
  match msgs.getLast? with
  | some last =>
    if isOpenTurn last then updateLast msgs s
    else msgs ++ [⟨aiIdOf nonce, Role.assistant, s⟩]
  | none => msgs ++ [⟨aiIdOf nonce, Role.assistant, s⟩]

/-- One delta arriving: `assistantSoFar += content` followed by the
`setMessages` call (lines 156-164). -/
def reconcile (nonce : List Char) (acc : StreamAcc) (v : JsonValue) : StreamAcc :=
  let s := acc.soFar ++ jsToString v
  ⟨reconcileMsgs nonce acc.msgs s, s⟩

/-- The `if (content) { ... }` guard of line 156: falsy content (absent,
null, empty string, zero, false) does nothing. -/
def applyContent (nonce : List Char) (acc : StreamAcc) (c : Option JsonValue) : StreamAcc :=
  match c with
  | some v => if jsTruthy v then reconcile nonce acc v else acc
  | none => acc

/-- The body of the `try` block applied to a stripped line (lines 153-155):
parse the trimmed payload and navigate to the delta content.  `none` models
a thrown exception (malformed JSON, or property access on null). -/
def extractOf (l : List Char) : Option (Option JsonValue) :=
  match jsonParse (jsTrim (l.drop 6)) with
  | none => none
  | some parsed => extractContent parsed

/-- The two skip conditions of lines 149-150: comment lines, blank lines and
lines that do not carry the mandatory `data: ` field marker are ignored. -/
def isSkipL (l : List Char) : Bool :=
  startsWithL [':'] l || (jsTrim l).isEmpty || !startsWithL sData l

/-- The inner `while` loop of lines 145-170 over a fixed text buffer: extract
complete lines one by one; skip comment, blank and unrecognized lines; stop
on the `[DONE]` sentinel; on an exception re-queue the stripped line in
front of the remaining buffer and stop; otherwise reconcile the delta and
continue.  The fuel argument only bounds the recursion and is irrelevant
whenever it exceeds the buffer length (each step removes at least the
newline). -/
def drainStep (nonce : List Char) : Nat → StreamAcc → List Char → StreamAcc × List Char
  | 0, acc, buf => (acc, buf)
  | fuel + 1, acc, buf =>
    match splitFirstLine buf with
    | none => (acc, buf)
    | some (raw, rest) =>
      let line := stripCR raw
      if isSkipL line then drainStep nonce fuel acc rest
      else if jsTrim (line.drop 6) = sDone then (acc, rest)
      else
        match extractOf line with
        | none => (acc, line ++ '\n' :: rest)
        | some content => drainStep nonce fuel (applyContent nonce acc content) rest

/-- The inner loop with adequate fuel. -/
def drain (nonce : List Char) (acc : StreamAcc) (buf : List Char) : StreamAcc × List Char :=
  drainStep nonce (buf.length + 1) acc buf

/-- One iteration of the outer read loop (lines 139-171): append the decoded
chunk to the text buffer, then drain complete lines. -/
def processChunk (nonce : List Char) (st : StreamAcc × List Char) (c : List Char) :
    StreamAcc × List Char :=
  drain nonce st.1 (st.2 ++ c)

/-- The outer read loop over the whole sequence of chunks delivered before
the reader reports `done`. -/
def runChunks (nonce : List Char) (st : StreamAcc × List Char) (cs : List (List Char)) :
    StreamAcc × List Char :=
  cs.foldl (processChunk nonce) st

/-- The user message displayed before streaming begins (line 105): role is
always `user`. -/
def displayMsgOf (id content : List Char) : Message := ⟨id, Role.user, content⟩

/-- Session start state: the transcript already extended with the displayed
user message (line 107), an empty accumulator (line 112) and an empty text
buffer (line 137). -/
def initAcc (prev : List Message) (u : Message) : StreamAcc := ⟨prev ++ [u], []⟩

/-- The full streaming session of `handleSend` on a successful response:
run every chunk, then discard whatever remains buffered when the reader
reports `done` (line 141). -/
def runSession (nonce : List Char) (prev : List Message) (u : Message)
    (cs : List (List Char)) : List Message :=
  (runChunks nonce (initAcc prev u, []) cs).1.msgs

/-! ## The non-2xx failure path (Chat.tsx lines 128-131 and 172-177) -/

/-- The `resp.ok` test: status in the 2xx range. -/
def respOk (status : Nat) : Bool := decide (200 ≤ status ∧ status ≤ 299)

/-- Engine-dependent text of the TypeError thrown by `errData.error` when
the body parses to JSON null; a fixed constant in this model, exercised by
no claim. -/
def typeErrorText : List Char :=
  ('T' :: "ypeError: Cannot read properties of null".data)

/-- The failure message built by lines 129-130: the `error` field of the
JSON body when truthy, else `Error <status>`.  A body that is not JSON
makes `resp.json()` reject, giving the empty object. -/
def errorMessageOf (status : Nat) (body : List Char) : List Char :=
  match jsonParse body with
  | some JsonValue.null => typeErrorText
  | some v =>
    match getMember v ['e', 'r', 'r', 'o', 'r'] with
    | some e => if jsTruthy e then jsToString e else ('E' :: "rror ".data) ++ (toString status).data
    | none => ('E' :: "rror ".data) ++ (toString status).data
  | none => ('E' :: "rror ".data) ++ (toString status).data

/-- The synthetic error turn appended by the catch block (lines 173-177). -/
def errorTurnContent (msg : List Char) : List Char :=
  ('S' :: "orry, I encountered an error: ".data) ++ msg ++ ('.' :: " Please try again.".data)

/-- Final transcript of `handleSend` when the response status is not 2xx:
the displayed user message was already appended, streaming never starts and
the catch block appends a synthetic error turn with role assistant. -/
def handleSendFailure (prev : List Message) (u : Message) (status : Nat)
    (body : List Char) (errNonce : List Char) : List Message :=
  (prev ++ [u]) ++ [⟨errIdOf errNonce, Role.assistant, errorTurnContent (errorMessageOf status body)⟩]

/-- Dispatch of `handleSend` on the response: a 2xx status streams the body
chunks, anything else takes the failure path. -/
def handleSendModel (nonce errNonce : List Char) (prev : List Message) (u : Message)
    (status : Nat) (body : List Char) (chunks : List (List Char)) : List Message :=
  if respOk status then runSession nonce prev u chunks
  else handleSendFailure prev u status body errNonce

/-! ## Line decomposition of a byte stream

The complete (newline-terminated) lines of a text, and the trailing
fragment after the last newline.  These are specification-side notions used
to canonicalize the chunked runs of the driver. -/

/-- Accumulating worker: `cur` holds the reversed current line. -/
def rawLinesAux (cur : List Char) : List Char → List (List Char)
  | [] => []
  | c :: cs => if c = '\n' then cur.reverse :: rawLinesAux [] cs else rawLinesAux (c :: cur) cs

/-- All complete (newline-terminated) raw lines of a text, in order. -/
def rawLines (s : List Char) : List (List Char) := rawLinesAux [] s

/-- Accumulating worker for the trailing fragment. -/
def tailFragAux (cur : List Char) : List Char → List Char
  | [] => cur.reverse
  | c :: cs => if c = '\n' then tailFragAux [] cs else tailFragAux (c :: cur) cs

/-- The fragment of a text after its last newline (all of it when it has
none). -/
def tailFrag (s : List Char) : List Char := tailFragAux [] s

/-- The whole byte stream delivered by a sequence of chunks. -/
def joinChunks (cs : List (List Char)) : List Char := cs.foldr (· ++ ·) []

/-- A stripped line is the `[DONE]` sentinel data line. -/
def isSentB (l : List Char) : Bool :=
  startsWithL sData l && decide (jsTrim (l.drop 6) = sDone)

/-- No complete line of the stream is a sentinel line. -/
def noSentB (s : List Char) : Bool :=
  (rawLines s).all (fun raw => !isSentB (stripCR raw))

/-- A stripped line is a data line whose payload makes the `try` block throw
(malformed JSON, or a null payload): exactly the lines that take the
re-buffer branch. -/
def lineFailsB (l : List Char) : Bool :=
  startsWithL sData l && !(decide (jsTrim (l.drop 6) = sDone)) && (extractOf l).isNone

/-- Reference line-by-line semantics of one session: process the complete
lines in order with the same per-line decisions as the driver; the Boolean
records that a stopping line (sentinel or throwing) was reached, after which
the driver reconciles nothing further. -/
def lineRunB (nonce : List Char) : StreamAcc → List (List Char) → StreamAcc × Bool
  | acc, [] => (acc, false)
  | acc, raw :: ls =>
    let l := stripCR raw
    if isSkipL l then lineRunB nonce acc ls
    else if jsTrim (l.drop 6) = sDone then (acc, true)
    else
      match extractOf l with
      | none => (acc, true)
      | some c => lineRunB nonce (applyContent nonce acc c) ls

/-- The prefix of the line sequence before the first stopping line: these
are the lines whose deltas reach the transcript. -/
def goodLines : List (List Char) → List (List Char)
  | [] => []
  | raw :: ls =>
    let l := stripCR raw
    if isSkipL l then raw :: goodLines ls
    else if jsTrim (l.drop 6) = sDone then []
    else
      match extractOf l with
      | none => []
      | some _ => raw :: goodLines ls

/-- Reconciliation of a sequence of string deltas, as the driver performs it
for consecutive well-formed content fragments of one session. -/
def foldDeltas (nonce : List Char) (acc : StreamAcc) (ds : List (List Char)) : StreamAcc :=
  ds.foldl (fun a d => applyContent nonce a (some (JsonValue.str d))) acc

/-! ## Structural lemmas about line splitting -/

theorem splitFirstLine_eq_none {s : List Char} (h : '\n' ∉ s) : splitFirstLine s = none := by
  induction s with
  | nil => rfl
  | cons c cs ih =>
    have hc : ¬c = '\n' := fun e => h (e ▸ List.mem_cons_self c cs)
    have hcs : '\n' ∉ cs := fun m => h (List.mem_cons_of_mem c m)
    simp only [splitFirstLine, if_neg hc, ih hcs]

theorem splitFirstLine_some_eq : ∀ {s l r : List Char}, splitFirstLine s = some (l, r) →
    s = l ++ '\n' :: r ∧ '\n' ∉ l := by
  intro s
  induction s with
  | nil => intro l r h; exact absurd h (by simp [splitFirstLine])
  | cons c cs ih =>
    intro l r h
    by_cases hc : c = '\n'
    · subst hc
      simp only [splitFirstLine, if_pos, Option.some.injEq, Prod.mk.injEq] at h
      obtain ⟨rfl, rfl⟩ := h
      exact ⟨rfl, List.not_mem_nil _⟩
    · simp only [splitFirstLine, if_neg hc] at h
      cases hsp : splitFirstLine cs with
      | none => rw [hsp] at h; exact absurd h (by simp)
      | some p =>
        obtain ⟨l', r'⟩ := p
        rw [hsp] at h
        simp only [Option.some.injEq, Prod.mk.injEq] at h
        obtain ⟨h1, h2⟩ := h
        subst h2
        obtain ⟨he, hn⟩ := ih hsp
        subst h1
        refine ⟨by rw [he, List.cons_append], ?_⟩
        intro hm
        rcases List.mem_cons.mp hm with h1 | h1
        · exact hc h1.symm
        · exact hn h1

theorem splitFirstLine_cons_of {l : List Char} (r : List Char) (h : '\n' ∉ l) :
    splitFirstLine (l ++ '\n' :: r) = some (l, r) := by
  induction l with
  | nil => simp [splitFirstLine]
  | cons c cs ih =>
    have hc : ¬c = '\n' := fun e => h (e ▸ List.mem_cons_self c cs)
    have hcs : '\n' ∉ cs := fun m => h (List.mem_cons_of_mem c m)
    rw [List.cons_append]
    simp only [splitFirstLine, if_neg hc]
    rw [ih hcs]

theorem stripCR_no_newline {l : List Char} (h : '\n' ∉ l) : '\n' ∉ stripCR l := by
  unfold stripCR
  by_cases hl : l.getLast? = some '\r'
  · rw [if_pos hl]
    exact fun m => h (List.dropLast_subset l m)
  · rwa [if_neg hl]

theorem rawLinesAux_no_newline : ∀ {s : List Char} (cur : List Char), '\n' ∉ s →
    rawLinesAux cur s = [] := by
  intro s
  induction s with
  | nil => intro cur _; rfl
  | cons c cs ih =>
    intro cur h
    have hc : ¬c = '\n' := fun e => h (e ▸ List.mem_cons_self c cs)
    have hcs : '\n' ∉ cs := fun m => h (List.mem_cons_of_mem c m)
    simp only [rawLinesAux, if_neg hc]
    exact ih _ hcs

theorem tailFragAux_no_newline : ∀ {s : List Char} (cur : List Char), '\n' ∉ s →
    tailFragAux cur s = cur.reverse ++ s := by
  intro s
  induction s with
  | nil => intro cur _; simp [tailFragAux]
  | cons c cs ih =>
    intro cur h
    have hc : ¬c = '\n' := fun e => h (e ▸ List.mem_cons_self c cs)
    have hcs : '\n' ∉ cs := fun m => h (List.mem_cons_of_mem c m)
    simp only [tailFragAux, if_neg hc]
    rw [ih _ hcs]
    simp

theorem rawLinesAux_line : ∀ {l : List Char} (cur r : List Char), '\n' ∉ l →
    rawLinesAux cur (l ++ '\n' :: r) = (cur.reverse ++ l) :: rawLinesAux [] r := by
  intro l
  induction l with
  | nil => intro cur r _; simp [rawLinesAux]
  | cons c cs ih =>
    intro cur r h
    have hc : ¬c = '\n' := fun e => h (e ▸ List.mem_cons_self c cs)
    have hcs : '\n' ∉ cs := fun m => h (List.mem_cons_of_mem c m)
    rw [List.cons_append]
    simp only [rawLinesAux, if_neg hc]
    rw [ih _ r hcs]
    simp

theorem tailFragAux_line : ∀ {l : List Char} (cur r : List Char), '\n' ∉ l →
    tailFragAux cur (l ++ '\n' :: r) = tailFragAux [] r := by
  intro l
  induction l with
  | nil => intro cur r _; simp [tailFragAux]
  | cons c cs ih =>
    intro cur r h
    have hc : ¬c = '\n' := fun e => h (e ▸ List.mem_cons_self c cs)
    have hcs : '\n' ∉ cs := fun m => h (List.mem_cons_of_mem c m)
    rw [List.cons_append]
    simp only [tailFragAux, if_neg hc]
    exact ih _ r hcs

theorem rawLines_nil_of {s : List Char} (h : '\n' ∉ s) : rawLines s = [] :=
  rawLinesAux_no_newline [] h

theorem tailFrag_eq_of {s : List Char} (h : '\n' ∉ s) : tailFrag s = s := by
  unfold tailFrag; rw [tailFragAux_no_newline [] h]; rfl

theorem rawLines_cons {l r : List Char} (h : '\n' ∉ l) :
    rawLines (l ++ '\n' :: r) = l :: rawLines r := by
  unfold rawLines; rw [rawLinesAux_line [] r h]; rfl

theorem tailFrag_cons {l r : List Char} (h : '\n' ∉ l) : tailFrag (l ++ '\n' :: r) = tailFrag r := by
  unfold tailFrag; rw [tailFragAux_line [] r h]

theorem tailFragAux_no_newline_mem : ∀ (s cur : List Char), '\n' ∉ cur → '\n' ∉ tailFragAux cur s := by
  intro s
  induction s with
  | nil =>
    intro cur h
    simpa only [tailFragAux, List.mem_reverse] using h
  | cons c cs ih =>
    intro cur h
    by_cases hc : c = '\n'
    · subst hc
      simp only [tailFragAux, if_pos rfl]
      exact ih [] (List.not_mem_nil _)
    · simp only [tailFragAux, if_neg hc]
      refine ih (c :: cur) ?_
      intro hm
      rcases List.mem_cons.mp hm with h1 | h1
      · exact hc h1.symm
      · exact h h1

theorem tailFrag_no_newline (s : List Char) : '\n' ∉ tailFrag s :=
  tailFragAux_no_newline_mem s [] (List.not_mem_nil _)

theorem rawLinesAux_append : ∀ (a cur b : List Char),
    rawLinesAux cur (a ++ b) = rawLinesAux cur a ++ rawLinesAux ((tailFragAux cur a).reverse) b := by
  intro a
  induction a with
  | nil => intro cur b; simp [rawLinesAux, tailFragAux]
  | cons c cs ih =>
    intro cur b
    by_cases hc : c = '\n'
    · subst hc
      rw [List.cons_append]
      simp only [rawLinesAux, tailFragAux, if_pos rfl]
      rw [ih [] b]
      simp
    · rw [List.cons_append]
      simp only [rawLinesAux, tailFragAux, if_neg hc]
      exact ih (c :: cur) b

theorem tailFragAux_append : ∀ (a cur b : List Char),
    tailFragAux cur (a ++ b) = tailFragAux ((tailFragAux cur a).reverse) b := by
  intro a
  induction a with
  | nil => intro cur b; simp [tailFragAux]
  | cons c cs ih =>
    intro cur b
    by_cases hc : c = '\n'
    · subst hc
      rw [List.cons_append]
      simp only [tailFragAux, if_pos rfl]
      exact ih [] b
    · rw [List.cons_append]
      simp only [tailFragAux, if_neg hc]
      exact ih (c :: cur) b

theorem rawLinesAux_of_rev (t b : List Char) (h : '\n' ∉ t) :
    rawLinesAux t.reverse b = rawLines (t ++ b) := by
  unfold rawLines
  rw [rawLinesAux_append t [] b, rawLinesAux_no_newline [] h,
    tailFragAux_no_newline [] h]
  simp

theorem rawLines_append (s x : List Char) :
    rawLines (s ++ x) = rawLines s ++ rawLines (tailFrag s ++ x) := by
  unfold rawLines
  rw [rawLinesAux_append s [] x]
  rw [show tailFragAux [] s = tailFrag s from rfl]
  rw [rawLinesAux_of_rev (tailFrag s) x (tailFrag_no_newline s)]
  rfl

theorem tailFrag_append (s x : List Char) : tailFrag (s ++ x) = tailFrag (tailFrag s ++ x) := by
  have h := tailFrag_no_newline s
  unfold tailFrag
  rw [tailFragAux_append s [] x]
  rw [show tailFragAux [] s = tailFrag s from rfl]
  rw [tailFragAux_append (tailFrag s) [] x]
  rw [show tailFragAux [] (tailFrag s) = tailFrag (tailFrag s) from rfl]
  rw [tailFrag_eq_of h]

/-! ## Facts about data lines and the carriage-return strip -/

theorem startsWithL_self (p t : List Char) : startsWithL p (p ++ t) = true :=
  decide_eq_true (List.take_left p t)

theorem data_decomp {l : List Char} (h : startsWithL sData l = true) :
    l = sData ++ l.drop 6 := by
  have h' : l.take sData.length = sData := of_decide_eq_true h
  conv_lhs => rw [← List.take_append_drop sData.length l]
  rw [h']
  rfl

theorem jsTrim_cons_nonws {c : Char} (t : List Char) (hc : isJsWs c = false) :
    ∃ y, jsTrim (c :: t) = c :: y := by
  unfold jsTrim trimRight
  rw [List.reverse_cons, List.dropWhile_append]
  by_cases he : (List.dropWhile isJsWs t.reverse).isEmpty = true
  · rw [if_pos he]
    rw [List.dropWhile_cons]
    rw [hc]
    simp only [Bool.false_eq_true, if_false, List.dropWhile_nil, List.reverse_cons,
      List.reverse_nil, List.nil_append]
    rw [List.dropWhile_cons, hc]
    exact ⟨[], by simp⟩
  · rw [if_neg he]
    rw [List.reverse_append, List.reverse_cons, List.reverse_nil, List.nil_append]
    rw [List.cons_append, List.dropWhile_cons, hc]
    simp only [Bool.false_eq_true, if_false]
    exact ⟨_, rfl⟩

theorem jsTrim_data_ne_nil {l : List Char} (h : startsWithL sData l = true) :
    (jsTrim l).isEmpty = false := by
  rw [data_decomp h]
  obtain ⟨y, hy⟩ := jsTrim_cons_nonws ('a' :: 't' :: 'a' :: ':' :: ' ' :: l.drop 6)
    (show isJsWs 'd' = false from rfl)
  rw [show sData ++ l.drop 6 = 'd' :: ('a' :: 't' :: 'a' :: ':' :: ' ' :: l.drop 6) from rfl]
  rw [hy]
  rfl

theorem colon_not_data {l : List Char} (h : startsWithL sData l = true) :
    startsWithL [':'] l = false := by
  unfold startsWithL
  rw [data_decomp h]
  rfl

theorem isSkipL_false_of_data {l : List Char} (h : startsWithL sData l = true) :
    isSkipL l = false := by
  unfold isSkipL
  rw [h, colon_not_data h, jsTrim_data_ne_nil h]
  rfl

theorem jsTrim_append_cr (y : List Char) : jsTrim (y ++ ['\r']) = jsTrim y := by
  unfold jsTrim trimRight
  rw [List.reverse_append, List.reverse_cons, List.reverse_nil, List.nil_append,
    List.cons_append, List.nil_append, List.dropWhile_cons,
    show isJsWs '\r' = true from rfl]
  simp only [if_true]

theorem stripCR_data {l : List Char} (h : startsWithL sData l = true) :
    startsWithL sData (stripCR l) = true ∧
      jsTrim ((stripCR l).drop 6) = jsTrim (l.drop 6) := by
  unfold stripCR
  by_cases hl : l.getLast? = some '\r'
  · rw [if_pos hl]
    have ht : l.drop 6 ≠ [] := by
      intro he
      have : l = sData := by rw [data_decomp h, he, List.append_nil]
      rw [this] at hl
      exact absurd hl (by decide)
    have hdec := data_decomp h
    have hdl : l.dropLast = sData ++ (l.drop 6).dropLast := by
      conv_lhs => rw [hdec]
      exact List.dropLast_append_of_ne_nil sData ht
    have hlast : (l.drop 6).getLast? = some '\r' := by
      rw [hdec, List.getLast?_append_of_ne_nil sData ht] at hl
      exact hl
    have hsplit : (l.drop 6).dropLast ++ ['\r'] = l.drop 6 :=
      List.dropLast_append_getLast? '\r' hlast
    constructor
    · rw [hdl]; exact startsWithL_self _ _
    · rw [hdl]
      conv_lhs => rw [show (6 : Nat) = sData.length from rfl, List.drop_left]
      conv_rhs => rw [← hsplit]
      rw [jsTrim_append_cr]
      exact rfl
  · rw [if_neg hl]
    exact ⟨h, rfl⟩

theorem extractOf_congr {l l' : List Char} (h : jsTrim (l.drop 6) = jsTrim (l'.drop 6)) :
    extractOf l = extractOf l' := by
  unfold extractOf
  rw [h]

theorem lineFailsB_stripCR {l : List Char} (h : lineFailsB l = true) :
    lineFailsB (stripCR l) = true := by
  unfold lineFailsB at h ⊢
  rw [Bool.and_eq_true, Bool.and_eq_true] at h
  obtain ⟨⟨h1, h2⟩, h3⟩ := h
  obtain ⟨g1, g2⟩ := stripCR_data h1
  have h3' : extractOf (stripCR l) = none := by
    rw [extractOf_congr g2]
    exact Option.isNone_iff_eq_none.mp h3
  rw [g1, g2, h2, h3']
  rfl

theorem drainStep_fuel_congr (nonce : List Char) :
    ∀ n m : Nat, ∀ acc buf, buf.length < n → buf.length < m →
      drainStep nonce n acc buf = drainStep nonce m acc buf := by
  intro n
  induction n with
  | zero => intro m acc buf h _; exact absurd h (Nat.not_lt_zero _)
  | succ n ih =>
    intro m acc buf hn hm
    cases m with
    | zero => exact absurd hm (Nat.not_lt_zero _)
    | succ m =>
      simp only [drainStep]
      cases hsp : splitFirstLine buf with
      | none => rfl
      | some p =>
        obtain ⟨raw, rest⟩ := p
        obtain ⟨he, -⟩ := splitFirstLine_some_eq hsp
        have hrest : rest.length < buf.length := by
          rw [he]; simp only [List.length_append, List.length_cons]; omega
        have hrn : rest.length < n := by omega
        have hrm : rest.length < m := by omega
        simp only
        split
        · exact ih m acc rest hrn hrm
        · split
          · rfl
          · split
            · rfl
            · exact ih m _ rest hrn hrm

/-! ## One-step behaviour of the inner drain loop -/

theorem jsonParse_sDone : jsonParse sDone = none := by rfl

theorem drain_step_eq (nonce : List Char) (acc : StreamAcc) {raw : List Char} (rest : List Char)
    (h : '\n' ∉ raw) :
    drain nonce acc (raw ++ '\n' :: rest) =
      (if isSkipL (stripCR raw) then drain nonce acc rest
       else if jsTrim ((stripCR raw).drop 6) = sDone then (acc, rest)
       else
         match extractOf (stripCR raw) with
         | none => (acc, stripCR raw ++ '\n' :: rest)
         | some content => drain nonce (applyContent nonce acc content) rest) := by
  have hlen : rest.length < (raw ++ '\n' :: rest).length := by
    simp only [List.length_append, List.length_cons]
    omega
  have hcongr : ∀ a : StreamAcc,
      drainStep nonce (raw ++ '\n' :: rest).length a rest =
        drainStep nonce (rest.length + 1) a rest := fun a =>
    drainStep_fuel_congr nonce _ _ a rest hlen (Nat.lt_succ_self _)
  conv_lhs => rw [drain]
  simp only [drainStep]
  rw [splitFirstLine_cons_of rest h]
  simp only [hcongr]
  rfl

theorem drain_no_newline (nonce : List Char) (acc : StreamAcc) {buf : List Char}
    (h : '\n' ∉ buf) : drain nonce acc buf = (acc, buf) := by
  rw [drain]
  simp only [drainStep]
  rw [splitFirstLine_eq_none h]

theorem drain_skip (nonce : List Char) (acc : StreamAcc) {raw : List Char} (rest : List Char)
    (h : '\n' ∉ raw) (hs : isSkipL (stripCR raw) = true) :
    drain nonce acc (raw ++ '\n' :: rest) = drain nonce acc rest := by
  rw [drain_step_eq nonce acc rest h, hs]
  rfl

theorem drain_sentinel (nonce : List Char) (acc : StreamAcc) {raw : List Char} (rest : List Char)
    (h : '\n' ∉ raw) (hns : isSkipL (stripCR raw) = false)
    (hd : jsTrim ((stripCR raw).drop 6) = sDone) :
    drain nonce acc (raw ++ '\n' :: rest) = (acc, rest) := by
  rw [drain_step_eq nonce acc rest h, hns, hd]
  simp

theorem drain_fail (nonce : List Char) (acc : StreamAcc) {raw : List Char} (rest : List Char)
    (h : '\n' ∉ raw) (hf : lineFailsB (stripCR raw) = true) :
    drain nonce acc (raw ++ '\n' :: rest) = (acc, stripCR raw ++ '\n' :: rest) := by
  unfold lineFailsB at hf
  rw [Bool.and_eq_true, Bool.and_eq_true] at hf
  obtain ⟨⟨h1, h2⟩, h3⟩ := hf
  rw [Option.isNone_iff_eq_none] at h3
  have hd : ¬jsTrim ((stripCR raw).drop 6) = sDone := by
    intro he
    rw [he] at h2
    simp at h2
  rw [drain_step_eq nonce acc rest h, isSkipL_false_of_data h1, h3]
  simp [hd]

theorem drain_content (nonce : List Char) (acc : StreamAcc) {raw : List Char}
    {c : Option JsonValue} (rest : List Char) (h : '\n' ∉ raw)
    (hns : isSkipL (stripCR raw) = false) (hc : extractOf (stripCR raw) = some c) :
    drain nonce acc (raw ++ '\n' :: rest) = drain nonce (applyContent nonce acc c) rest := by
  have hd : ¬jsTrim ((stripCR raw).drop 6) = sDone := by
    intro he
    unfold extractOf at hc
    rw [he, jsonParse_sDone] at hc
    exact absurd hc (by simp)
  rw [drain_step_eq nonce acc rest h, hns, hc]
  simp [hd]

/-! ## The reference line-level semantics and its laws -/

theorem no_newline_of_splitFirstLine_none : ∀ {s : List Char}, splitFirstLine s = none →
    '\n' ∉ s := by
  intro s
  induction s with
  | nil => intro _ hm; exact List.not_mem_nil _ hm
  | cons c cs ih =>
    intro h hm
    by_cases hc : c = '\n'
    · subst hc
      simp [splitFirstLine] at h
    · simp only [splitFirstLine, if_neg hc] at h
      cases hsp : splitFirstLine cs with
      | none =>
        rcases List.mem_cons.mp hm with h1 | h1
        · exact hc h1.symm
        · exact ih hsp h1
      | some p =>
        obtain ⟨l', r'⟩ := p
        rw [hsp] at h
        simp at h

theorem data_of_not_skip {l : List Char} (h : isSkipL l = false) :
    startsWithL sData l = true := by
  unfold isSkipL at h
  rcases Bool.or_eq_false_iff.mp h with ⟨-, h3⟩
  simpa using h3

theorem lineRunB_append_stop (nonce : List Char) :
    ∀ (ls : List (List Char)) (acc : StreamAcc) (ls' : List (List Char)),
      (lineRunB nonce acc ls).2 = true →
      lineRunB nonce acc (ls ++ ls') = lineRunB nonce acc ls := by
  intro ls
  induction ls with
  | nil => intro acc ls' h; simp [lineRunB] at h
  | cons raw ls ih =>
    intro acc ls' h
    rw [List.cons_append]
    by_cases h1 : isSkipL (stripCR raw) = true
    · simp only [lineRunB, h1, if_true] at h ⊢
      exact ih _ _ h
    · rw [Bool.not_eq_true] at h1
      by_cases h2 : jsTrim ((stripCR raw).drop 6) = sDone
      · simp [lineRunB, h1, h2]
      · cases hx : extractOf (stripCR raw) with
        | none => simp [lineRunB, h1, h2, hx]
        | some c =>
          simp only [lineRunB, h1, Bool.false_eq_true, if_false, if_neg h2, hx] at h ⊢
          exact ih _ _ h

theorem lineRunB_append_go (nonce : List Char) :
    ∀ (ls : List (List Char)) (acc : StreamAcc) (ls' : List (List Char)),
      (lineRunB nonce acc ls).2 = false →
      lineRunB nonce acc (ls ++ ls') = lineRunB nonce ((lineRunB nonce acc ls).1) ls' := by
  intro ls
  induction ls with
  | nil => intro acc ls' _; simp [lineRunB]
  | cons raw ls ih =>
    intro acc ls' h
    rw [List.cons_append]
    by_cases h1 : isSkipL (stripCR raw) = true
    · simp only [lineRunB, h1, if_true] at h ⊢
      exact ih _ _ h
    · rw [Bool.not_eq_true] at h1
      by_cases h2 : jsTrim ((stripCR raw).drop 6) = sDone
      · simp [lineRunB, h1, h2] at h
      · cases hx : extractOf (stripCR raw) with
        | none => simp [lineRunB, h1, h2, hx] at h
        | some c =>
          simp only [lineRunB, h1, Bool.false_eq_true, if_false, if_neg h2, hx] at h ⊢
          exact ih _ _ h

theorem lineRunB_goodLines (nonce : List Char) :
    ∀ (ls : List (List Char)) (acc : StreamAcc),
      (lineRunB nonce acc ls).1 = (lineRunB nonce acc (goodLines ls)).1 := by
  intro ls
  induction ls with
  | nil => intro acc; rfl
  | cons raw ls ih =>
    intro acc
    by_cases h1 : isSkipL (stripCR raw) = true
    · simp only [lineRunB, goodLines, h1, if_true]
      exact ih _
    · rw [Bool.not_eq_true] at h1
      by_cases h2 : jsTrim ((stripCR raw).drop 6) = sDone
      · simp [lineRunB, goodLines, h1, h2]
      · cases hx : extractOf (stripCR raw) with
        | none => simp [lineRunB, goodLines, h1, h2, hx]
        | some c =>
          simp only [lineRunB, goodLines, h1, Bool.false_eq_true, if_false, if_neg h2, hx]
          exact ih _

theorem drainStep_succ_eq (nonce : List Char) (acc : StreamAcc) {raw : List Char}
    (rest : List Char) (n : Nat) (h : '\n' ∉ raw) :
    drainStep nonce (n + 1) acc (raw ++ '\n' :: rest) =
      (if isSkipL (stripCR raw) then drainStep nonce n acc rest
       else if jsTrim ((stripCR raw).drop 6) = sDone then (acc, rest)
       else
         match extractOf (stripCR raw) with
         | none => (acc, stripCR raw ++ '\n' :: rest)
         | some content => drainStep nonce n (applyContent nonce acc content) rest) := by
  simp only [drainStep]
  rw [splitFirstLine_cons_of rest h]

theorem drainStep_spec (nonce : List Char) :
    ∀ (n : Nat) (buf : List Char) (acc : StreamAcc), buf.length < n →
      (∀ raw ∈ rawLines buf, isSentB (stripCR raw) = false) →
      (drainStep nonce n acc buf).1 = (lineRunB nonce acc (rawLines buf)).1 ∧
      (((lineRunB nonce acc (rawLines buf)).2 = false ∧
          (drainStep nonce n acc buf).2 = tailFrag buf) ∨
        ((lineRunB nonce acc (rawLines buf)).2 = true ∧
          ∃ F R, (drainStep nonce n acc buf).2 = F ++ '\n' :: R ∧
            lineFailsB F = true ∧ '\n' ∉ F)) := by
  intro n
  induction n with
  | zero => intro buf acc h _; exact absurd h (Nat.not_lt_zero _)
  | succ n ih =>
    intro buf acc hn hs
    cases hsp : splitFirstLine buf with
    | none =>
      have hnl : '\n' ∉ buf := no_newline_of_splitFirstLine_none hsp
      have hstep : drainStep nonce (n + 1) acc buf = (acc, buf) := by
        simp only [drainStep]
        rw [hsp]
      rw [hstep, rawLines_nil_of hnl, tailFrag_eq_of hnl]
      exact ⟨rfl, Or.inl ⟨rfl, rfl⟩⟩
    | some p =>
      obtain ⟨raw, rest⟩ := p
      obtain ⟨he, hnr⟩ := splitFirstLine_some_eq hsp
      subst he
      have hlen : rest.length < n := by
        simp only [List.length_append, List.length_cons] at hn
        omega
      rw [drainStep_succ_eq nonce acc rest n hnr, rawLines_cons hnr, tailFrag_cons hnr]
      have hsent : isSentB (stripCR raw) = false :=
        hs raw (by rw [rawLines_cons hnr]; exact List.mem_cons_self _ _)
      have hstail : ∀ r ∈ rawLines rest, isSentB (stripCR r) = false := by
        intro r hm
        exact hs r (by rw [rawLines_cons hnr]; exact List.mem_cons_of_mem _ hm)
      by_cases h1 : isSkipL (stripCR raw) = true
      · rw [if_pos h1]
        have hLR : lineRunB nonce acc (raw :: rawLines rest) = lineRunB nonce acc (rawLines rest) := by
          simp only [lineRunB]
          rw [if_pos h1]
        rw [hLR]
        exact ih rest acc hlen hstail
      · have h1f : isSkipL (stripCR raw) = false := by
          rwa [Bool.not_eq_true] at h1
        have hdata : startsWithL sData (stripCR raw) = true := data_of_not_skip h1f
        by_cases h2 : jsTrim ((stripCR raw).drop 6) = sDone
        · exfalso
          have hsent' : isSentB (stripCR raw) = true := by
            unfold isSentB
            rw [hdata, decide_eq_true h2]
            rfl
          rw [hsent'] at hsent
          exact absurd hsent (by decide)
        · cases hx : extractOf (stripCR raw) with
          | none =>
            have hfail : lineFailsB (stripCR raw) = true := by
              unfold lineFailsB
              rw [hdata, hx]
              simp [h2]
            have hLR : lineRunB nonce acc (raw :: rawLines rest) = (acc, true) := by
              simp only [lineRunB]
              rw [if_neg h1, if_neg h2, hx]
            rw [if_neg h1, if_neg h2, hLR]
            exact ⟨rfl, Or.inr ⟨rfl, stripCR raw, rest, rfl, hfail, stripCR_no_newline hnr⟩⟩
          | some c =>
            have hLR : lineRunB nonce acc (raw :: rawLines rest) =
                lineRunB nonce (applyContent nonce acc c) (rawLines rest) := by
              simp only [lineRunB]
              rw [if_neg h1, if_neg h2, hx]
            rw [if_neg h1, if_neg h2, hLR]
            exact ih rest (applyContent nonce acc c) hlen hstail

/-! ## Canonicalization of the chunked run -/

theorem runChunks_stalled (nonce : List Char) :
    ∀ (cs : List (List Char)) (acc : StreamAcc) (F R : List Char),
      lineFailsB F = true → '\n' ∉ F →
      (runChunks nonce (acc, F ++ '\n' :: R) cs).1 = acc := by
  intro cs
  induction cs with
  | nil => intro acc F R _ _; rfl
  | cons c cs ih =>
    intro acc F R hF hnF
    show (runChunks nonce (processChunk nonce (acc, F ++ '\n' :: R) c) cs).1 = acc
    have he : (F ++ '\n' :: R) ++ c = F ++ '\n' :: (R ++ c) := by simp
    have hd : drain nonce acc (F ++ '\n' :: (R ++ c)) = (acc, stripCR F ++ '\n' :: (R ++ c)) :=
      drain_fail nonce acc (R ++ c) hnF (lineFailsB_stripCR hF)
    rw [show processChunk nonce (acc, F ++ '\n' :: R) c =
      drain nonce acc ((F ++ '\n' :: R) ++ c) from rfl, he, hd]
    exact ih acc (stripCR F) (R ++ c) (lineFailsB_stripCR hF) (stripCR_no_newline hnF)

theorem runChunks_norm (nonce : List Char) :
    ∀ (cs : List (List Char)) (acc : StreamAcc) (tail : List Char),
      '\n' ∉ tail →
      (∀ raw ∈ rawLines (tail ++ joinChunks cs), isSentB (stripCR raw) = false) →
      (runChunks nonce (acc, tail) cs).1 =
        (lineRunB nonce acc (rawLines (tail ++ joinChunks cs))).1 := by
  intro cs
  induction cs with
  | nil =>
    intro acc tail hnl _
    rw [show joinChunks ([] : List (List Char)) = [] from rfl, List.append_nil,
      rawLines_nil_of hnl]
    rfl
  | cons c cs ih =>
    intro acc tail hnl hs
    have hjoin : tail ++ joinChunks (c :: cs) = (tail ++ c) ++ joinChunks cs := by
      show tail ++ (c ++ joinChunks cs) = _
      rw [List.append_assoc]
    have hsB : ∀ raw ∈ rawLines (tail ++ c), isSentB (stripCR raw) = false := by
      intro raw hm
      apply hs
      rw [hjoin, rawLines_append (tail ++ c) (joinChunks cs)]
      exact List.mem_append_left _ hm
    obtain ⟨hacc, hdisj⟩ :=
      drainStep_spec nonce ((tail ++ c).length + 1) (tail ++ c) acc (Nat.lt_succ_self _) hsB
    show (runChunks nonce (processChunk nonce (acc, tail) c) cs).1 = _
    have hpc : processChunk nonce (acc, tail) c =
        drainStep nonce ((tail ++ c).length + 1) acc (tail ++ c) := rfl
    rcases hdisj with ⟨hflag, hbuf⟩ | ⟨hflag, F, R, hbuf, hF, hnF⟩
    · have hpair : processChunk nonce (acc, tail) c =
          ((lineRunB nonce acc (rawLines (tail ++ c))).1, tailFrag (tail ++ c)) := by
        rw [hpc]
        exact Prod.ext hacc hbuf
      rw [hpair]
      have htf : '\n' ∉ tailFrag (tail ++ c) := tailFrag_no_newline _
      have hsT : ∀ raw ∈ rawLines (tailFrag (tail ++ c) ++ joinChunks cs),
          isSentB (stripCR raw) = false := by
        intro raw hm
        apply hs
        rw [hjoin, rawLines_append (tail ++ c) (joinChunks cs)]
        exact List.mem_append_right _ hm
      rw [ih ((lineRunB nonce acc (rawLines (tail ++ c))).1) (tailFrag (tail ++ c)) htf hsT]
      rw [hjoin, rawLines_append (tail ++ c) (joinChunks cs)]
      rw [lineRunB_append_go nonce _ acc _ hflag]
    · have hpair : processChunk nonce (acc, tail) c =
          ((lineRunB nonce acc (rawLines (tail ++ c))).1, F ++ '\n' :: R) := by
        rw [hpc]
        exact Prod.ext hacc hbuf
      rw [hpair]
      rw [runChunks_stalled nonce cs _ F R hF hnF]
      rw [hjoin, rawLines_append (tail ++ c) (joinChunks cs)]
      rw [lineRunB_append_stop nonce _ acc _ hflag]

/-- Canonical form of a whole session: when the stream carries no sentinel
line, the final transcript depends only on the reassembled byte stream,
through its sequence of complete lines. -/
theorem runSession_canonical (nonce : List Char) (prev : List Message) (u : Message)
    (cs : List (List Char)) (hs : noSentB (joinChunks cs) = true) :
    runSession nonce prev u cs =
      (lineRunB nonce (initAcc prev u) (rawLines (joinChunks cs))).1.msgs := by
  unfold runSession
  have hs' : ∀ raw ∈ rawLines (([] : List Char) ++ joinChunks cs),
      isSentB (stripCR raw) = false := by
    intro raw hm
    rw [List.nil_append] at hm
    have h2 := (List.all_eq_true.mp hs) raw hm
    simpa using h2
  rw [runChunks_norm nonce cs (initAcc prev u) [] (List.not_mem_nil _) hs']
  rw [List.nil_append]

/-! ## Laws of the transcript reconciler -/

theorem updateLast_concat : ∀ (M : List Message) (m : Message) (c : List Char),
    updateLast (M ++ [m]) c = M ++ [⟨m.id, m.role, c⟩] := by
  intro M
  induction M with
  | nil => intro m c; rfl
  | cons a M ih =>
    intro m c
    rw [List.cons_append]
    rcases hM : M ++ [m] with _ | ⟨b, l⟩
    · exact absurd hM (by simp)
    · rw [show updateLast (a :: b :: l) c = a :: updateLast (b :: l) c from rfl]
      rw [← hM, ih m c, List.cons_append]

theorem isOpenTurn_ai (nonce s : List Char) :
    isOpenTurn ⟨aiIdOf nonce, Role.assistant, s⟩ = true := by
  unfold isOpenTurn aiIdOf
  rw [startsWithL_self]
  rfl

theorem isOpenTurn_user (id c : List Char) : isOpenTurn (displayMsgOf id c) = false := rfl

theorem reconcile_open (nonce : List Char) (M : List Message) (i x s : List Char)
    (v : JsonValue) (hi : startsWithL aiPre i = true) :
    reconcile nonce ⟨M ++ [⟨i, Role.assistant, x⟩], s⟩ v =
      ⟨M ++ [⟨i, Role.assistant, s ++ jsToString v⟩], s ++ jsToString v⟩ := by
  unfold reconcile reconcileMsgs
  rw [List.getLast?_concat]
  have hopen : isOpenTurn ⟨i, Role.assistant, x⟩ = true := by
    unfold isOpenTurn
    rw [hi]
    rfl
  dsimp only
  rw [if_pos hopen, updateLast_concat]

theorem reconcile_fresh (nonce : List Char) (M : List Message) (t : Message) (s : List Char)
    (v : JsonValue) (ht : isOpenTurn t = false) :
    reconcile nonce ⟨M ++ [t], s⟩ v =
      ⟨(M ++ [t]) ++ [⟨aiIdOf nonce, Role.assistant, s ++ jsToString v⟩], s ++ jsToString v⟩ := by
  unfold reconcile reconcileMsgs
  rw [List.getLast?_concat]
  dsimp only
  rw [if_neg (by rw [ht]; exact Bool.false_ne_true)]

theorem applyContent_str (nonce : List Char) (acc : StreamAcc) {d : List Char} (hd : d ≠ []) :
    applyContent nonce acc (some (JsonValue.str d)) = reconcile nonce acc (JsonValue.str d) := by
  unfold applyContent
  have ht : jsTruthy (JsonValue.str d) = true := by
    unfold jsTruthy
    simp [hd]
  dsimp only
  rw [if_pos ht]

theorem foldDeltas_ext (nonce : List Char) :
    ∀ (ds : List (List Char)) (M : List Message) (i s : List Char),
      startsWithL aiPre i = true → (∀ d ∈ ds, d ≠ []) →
      foldDeltas nonce ⟨M ++ [⟨i, Role.assistant, s⟩], s⟩ ds =
        ⟨M ++ [⟨i, Role.assistant, s ++ joinChunks ds⟩], s ++ joinChunks ds⟩ := by
  intro ds
  induction ds with
  | nil =>
    intro M i s _ _
    rw [show joinChunks ([] : List (List Char)) = [] from rfl, List.append_nil]
    rfl
  | cons d ds ih =>
    intro M i s hi hd
    have hd1 : d ≠ [] := hd d (List.mem_cons_self _ _)
    have hds : ∀ x ∈ ds, x ≠ [] := fun x hx => hd x (List.mem_cons_of_mem _ hx)
    rw [show foldDeltas nonce ⟨M ++ [⟨i, Role.assistant, s⟩], s⟩ (d :: ds) =
      foldDeltas nonce
        (applyContent nonce ⟨M ++ [⟨i, Role.assistant, s⟩], s⟩ (some (JsonValue.str d))) ds
      from rfl]
    rw [applyContent_str nonce _ hd1, reconcile_open nonce M i s s _ hi]
    rw [show jsToString (JsonValue.str d) = d from rfl]
    rw [ih M i (s ++ d) hi hds]
    rw [show joinChunks (d :: ds) = d ++ joinChunks ds from rfl, List.append_assoc]

theorem foldDeltas_fresh (nonce : List Char) (M : List Message) (t : Message)
    (ds : List (List Char)) (ht : isOpenTurn t = false) (hne : ds ≠ [])
    (hd : ∀ d ∈ ds, d ≠ []) :
    foldDeltas nonce ⟨M ++ [t], []⟩ ds =
      ⟨(M ++ [t]) ++ [⟨aiIdOf nonce, Role.assistant, joinChunks ds⟩], joinChunks ds⟩ := by
  cases ds with
  | nil => exact absurd rfl hne
  | cons d ds =>
    have hd1 : d ≠ [] := hd d (List.mem_cons_self _ _)
    have hds : ∀ x ∈ ds, x ≠ [] := fun x hx => hd x (List.mem_cons_of_mem _ hx)
    rw [show foldDeltas nonce ⟨M ++ [t], []⟩ (d :: ds) =
      foldDeltas nonce (applyContent nonce ⟨M ++ [t], []⟩ (some (JsonValue.str d))) ds
      from rfl]
    rw [applyContent_str nonce _ hd1, reconcile_fresh nonce M t [] _ ht]
    rw [show jsToString (JsonValue.str d) = d from rfl]
    rw [show ([] : List Char) ++ d = d from rfl]
    rw [foldDeltas_ext nonce ds (M ++ [t]) (aiIdOf nonce) d
      (by unfold aiIdOf; exact startsWithL_self _ _) hds]
    rw [show joinChunks (d :: ds) = d ++ joinChunks ds from rfl]

/-! ## Claim theorems -/

/-- Claim C1: for the three-line input stream carrying the deltas `Hel` and
`lo` followed by the `[DONE]` sentinel, the stream loop of handleSend
appends exactly one new assistant turn whose final content is `Hello`; and
in general, folding any sequence of consecutive nonempty string deltas of
one session over the reconciler yields a single new assistant turn whose
content is their concatenation in arrival order. -/
theorem c1_single_turn_concat :
    (runSession ("7").data [] (displayMsgOf ("42").data ("hi").data)
        [("data: \x7b\"choices\":[\x7b\"delta\":\x7b\"content\":\"Hel\"\x7d\x7d]\x7d\n").data,
         ("data: \x7b\"choices\":[\x7b\"delta\":\x7b\"content\":\"lo\"\x7d\x7d]\x7d\n").data,
         ("data: [DONE]\n").data] =
      [displayMsgOf ("42").data ("hi").data,
       ⟨aiIdOf ("7").data, Role.assistant, ("Hello").data⟩]) ∧
    (∀ (nonce : List Char) (prev : List Message) (id c : List Char) (ds : List (List Char)),
      ds ≠ [] → (∀ d ∈ ds, d ≠ []) →
      (foldDeltas nonce (initAcc prev (displayMsgOf id c)) ds).msgs =
        (prev ++ [displayMsgOf id c]) ++
          [⟨aiIdOf nonce, Role.assistant, joinChunks ds⟩]) := by
  constructor
  · decide
  · intro nonce prev id c ds hne hd
    unfold initAcc
    rw [foldDeltas_fresh nonce prev (displayMsgOf id c) ds (isOpenTurn_user id c) hne hd]

theorem c1_single_turn_concat_witness :
    (foldDeltas ("n").data (initAcc [] (displayMsgOf ("1").data ("q").data))
        [("ab").data, ("c").data]).msgs =
      ([] ++ [displayMsgOf ("1").data ("q").data]) ++
        [⟨aiIdOf ("n").data, Role.assistant, joinChunks [("ab").data, ("c").data]⟩] :=
  c1_single_turn_concat.2 ("n").data [] ("1").data ("q").data
    [("ab").data, ("c").data] (by decide) (by decide)

/-- Claim C2, counterexample: two chunkings of the same byte stream produce
different final transcripts.  The stream carries a sentinel line followed by
a delta line; delivered in one chunk the delta is never processed, while
delivered in two chunks the outer read loop resumes after the sentinel and
reconciles the delta. -/
theorem c2_chunking_dependence :
    joinChunks
        [("data: [DONE]\ndata: \x7b\"choices\":[\x7b\"delta\":\x7b\"content\":\"X\"\x7d\x7d]\x7d\n").data] =
      joinChunks
        [("data: [DONE]\n").data,
         ("data: \x7b\"choices\":[\x7b\"delta\":\x7b\"content\":\"X\"\x7d\x7d]\x7d\n").data] ∧
    runSession ("7").data [] (displayMsgOf ("42").data ("hi").data)
        [("data: [DONE]\ndata: \x7b\"choices\":[\x7b\"delta\":\x7b\"content\":\"X\"\x7d\x7d]\x7d\n").data] ≠
      runSession ("7").data [] (displayMsgOf ("42").data ("hi").data)
        [("data: [DONE]\n").data,
         ("data: \x7b\"choices\":[\x7b\"delta\":\x7b\"content\":\"X\"\x7d\x7d]\x7d\n").data] := by
  constructor
  · decide
  · decide

/-- Claim C2, amended: chunking-invariance holds for every byte stream none
of whose complete lines is a `[DONE]` sentinel data line: any two chunkings
that reassemble to the same bytes produce the same final transcript. -/
theorem c2_chunking_invariance (nonce : List Char) (prev : List Message) (u : Message)
    (cs1 cs2 : List (List Char)) (hj : joinChunks cs1 = joinChunks cs2)
    (hs : noSentB (joinChunks cs1) = true) :
    runSession nonce prev u cs1 = runSession nonce prev u cs2 := by
  rw [runSession_canonical nonce prev u cs1 hs,
    runSession_canonical nonce prev u cs2 (by rw [← hj]; exact hs), hj]

theorem c2_chunking_invariance_witness :
    runSession ("7").data [] (displayMsgOf ("42").data ("hi").data)
        [("data: \x7b\"choices\":[\x7b\"delta\":\x7b\"content\":\"Hel\"\x7d\x7d]\x7d\ndata: \x7b\"choices\":[\x7b\"delta\":\x7b\"content\":\"lo\"\x7d\x7d]\x7d\n").data] =
      runSession ("7").data [] (displayMsgOf ("42").data ("hi").data)
        [("data: \x7b\"choi").data,
         ("ces\":[\x7b\"delta\":\x7b\"content\":\"Hel\"\x7d\x7d]\x7d\ndata: \x7b\"choices\":[\x7b\"delta\":\x7b\"content\":\"lo\"\x7d\x7d]\x7d\n").data] :=
  c2_chunking_invariance ("7").data [] (displayMsgOf ("42").data ("hi").data)
    _ _ (by decide) (by decide)

/-- Claim C3: the code does not terminate the session at the `[DONE]`
sentinel.  The sentinel only breaks the inner line loop; when another chunk
arrives, the loop resumes and reconciles data that followed the sentinel.
At the failing input below, the delta `X` sent after `[DONE]` is appended to
the transcript as a new assistant turn, against the specified behaviour. -/
theorem c3_sentinel_does_not_stop_stream :
    runSession ("7").data [] (displayMsgOf ("42").data ("hi").data)
        [("data: [DONE]\n").data,
         ("data: \x7b\"choices\":[\x7b\"delta\":\x7b\"content\":\"X\"\x7d\x7d]\x7d\n").data] =
      [displayMsgOf ("42").data ("hi").data,
       ⟨aiIdOf ("7").data, Role.assistant, ['X']⟩] := by
  decide

/-- Claim C4, counterexample: a JSON object split by an intermediate newline
is never reassembled.  The payload of the first line fails to parse, the
line is re-queued with a newline behind it, and every later decode attempt
re-extracts the same line, so the delta `Hi` is extracted zero times (not
exactly once); the second conjunct shows the reassembled single line would
have carried that delta. -/
theorem c4_split_json_not_repaired :
    runSession ("7").data [] (displayMsgOf ("42").data ("hi").data)
        [("data: \x7b\"choices\":[\x7b\"delta\":\x7b\"content\":\n").data,
         ("\"Hi\"\x7d\x7d]\x7d\n").data] =
      [displayMsgOf ("42").data ("hi").data] ∧
    extractOf ("data: \x7b\"choices\":[\x7b\"delta\":\x7b\"content\":\"Hi\"\x7d\x7d]\x7d").data =
      some (some (JsonValue.str ['H', 'i'])) := by
  constructor
  · decide
  · rfl

/-- Claim C4, amended: on a decode failure the driver re-queues the stripped
original line followed by a newline at the front of the buffer and stops the
cycle; because line extraction stops at the first newline, the re-queued
line is retried unchanged and never concatenated with the next raw line, so
the transcript accumulated so far never changes again, no matter what input
follows. -/
theorem c4_rebuffer_never_repairs (nonce : List Char) (acc : StreamAcc) (F R : List Char)
    (cs : List (List Char)) (hF : lineFailsB F = true) (hnF : '\n' ∉ F) :
    drain nonce acc (F ++ '\n' :: R) = (acc, stripCR F ++ '\n' :: R) ∧
    (runChunks nonce (acc, F ++ '\n' :: R) cs).1 = acc :=
  ⟨drain_fail nonce acc R hnF (lineFailsB_stripCR hF),
   runChunks_stalled nonce cs acc F R hF hnF⟩

theorem c4_rebuffer_never_repairs_witness :
    drain ("7").data ⟨[], []⟩ (("data: \x7b\"a\":").data ++ '\n' :: ("rest").data) =
      (⟨[], []⟩, stripCR ("data: \x7b\"a\":").data ++ '\n' :: ("rest").data) ∧
    (runChunks ("7").data (⟨[], []⟩, ("data: \x7b\"a\":").data ++ '\n' :: ("rest").data)
        [("1\x7d\n").data]).1 = ⟨[], []⟩ :=
  c4_rebuffer_never_repairs ("7").data ⟨[], []⟩ ("data: \x7b\"a\":").data ("rest").data
    [("1\x7d\n").data] (by decide) (by decide)

/-- Claim C5, counterexample: three deviations of the code from the claim,
each at an explicit input with status 500.  First, for the body carrying
the error field `rate limited`, the failure message is right but the catch
block appends a synthetic error turn whose role is `assistant`, so a new
assistant-role turn is appended to the transcript, contrary to the claim
that none is.  Second, for the JSON body `null`, reading the error field
throws a TypeError, and the failure message is the TypeError text, which
contains no digit `5` and hence not the numeric status the claim promises.
Third, the JSON body whose error field is the empty string contains an
error field, yet the failure message is `Error 500` rather than that
field. -/
theorem c5_original_claim_failures :
    handleSendModel ("7").data ("9").data [] (displayMsgOf ("42").data ("hi").data)
        500 ("\x7b\"error\":\"rate limited\"\x7d").data [] =
      [displayMsgOf ("42").data ("hi").data,
       ⟨errIdOf ("9").data, Role.assistant,
        ("Sorry, I encountered an error: rate limited. Please try again.").data⟩] ∧
    (⟨errIdOf ("9").data, Role.assistant,
        ("Sorry, I encountered an error: rate limited. Please try again.").data⟩ : Message).role =
      Role.assistant ∧
    errorMessageOf 500 (("null").data) = typeErrorText ∧
    '5' ∉ errorMessageOf 500 (("null").data) ∧
    errorMessageOf 500 (("\x7b\"error\":\"\"\x7d").data) = ("Error 500").data := by
  refine ⟨?_, ?_, ?_, ?_, ?_⟩
  · decide
  · rfl
  · rfl
  · decide
  · decide

/-- The failure message when the body parses to a non-null JSON value whose
error field is absent or falsy: the status text is used. -/
theorem errorMessageOf_fallback (status : Nat) (body : List Char) (v : JsonValue)
    (h1 : jsonParse body = some v) (hv : v ≠ JsonValue.null)
    (hf : ∀ e, getMember v (("error").data) = some e → jsTruthy e = false) :
    errorMessageOf status body = ("Error ").data ++ (toString status).data := by
  cases v with
  | null => exact absurd rfl hv
  | bool b =>
    unfold errorMessageOf
    rw [h1]
    exact rfl
  | num neg ip fp eneg ed =>
    unfold errorMessageOf
    rw [h1]
    exact rfl
  | str s =>
    unfold errorMessageOf
    rw [h1]
    exact rfl
  | arr xs =>
    unfold errorMessageOf
    rw [h1]
    exact rfl
  | obj ms =>
    unfold errorMessageOf
    rw [h1]
    dsimp only [getMember]
    cases hx : lookupLastMember ['e', 'r', 'r', 'o', 'r'] ms with
    | none => exact rfl
    | some e =>
      have he : jsTruthy e = false := hf e hx
      dsimp only
      rw [if_neg (by rw [he]; exact Bool.false_ne_true)]

/-- Claim C5, amended: every non-2xx response makes handleSend append, after
the displayed user message, exactly one synthetic error turn (role
assistant, id prefixed `err-`, never an open `ai-` turn) carrying the
failure message.  The failure message is characterized exhaustively over
the body: the string coercion of the error field when the body parses as
JSON to a value whose error field is present and truthy; the text
`Error <status>` when the body is not JSON or parses to a non-null JSON
value whose error field is absent or falsy; and, when the body parses to
JSON null, the engine TypeError text raised by reading the error field of
null. -/
theorem c5_failure_path (nonce errNonce : List Char) (prev : List Message) (u : Message)
    (status : Nat) (body : List Char) (chunks : List (List Char))
    (h : respOk status = false) :
    handleSendModel nonce errNonce prev u status body chunks =
      (prev ++ [u]) ++
        [⟨errIdOf errNonce, Role.assistant, errorTurnContent (errorMessageOf status body)⟩] ∧
    startsWithL aiPre (errIdOf errNonce) = false ∧
    (∀ v e, jsonParse body = some v → getMember v (("error").data) = some e →
      jsTruthy e = true → errorMessageOf status body = jsToString e) ∧
    (∀ v, jsonParse body = some v → v ≠ JsonValue.null →
      (∀ e, getMember v (("error").data) = some e → jsTruthy e = false) →
      errorMessageOf status body = ("Error ").data ++ (toString status).data) ∧
    (jsonParse body = none →
      errorMessageOf status body = ("Error ").data ++ (toString status).data) ∧
    (jsonParse body = some JsonValue.null →
      errorMessageOf status body = typeErrorText) := by
  refine ⟨?_, ?_, ?_, ?_, ?_, ?_⟩
  · unfold handleSendModel
    rw [if_neg (by rw [h]; exact Bool.false_ne_true)]
    rfl
  · rfl
  · intro v e h1 h2 h3
    cases v with
    | null =>
      rw [show getMember JsonValue.null (("error").data) = none from rfl] at h2
      exact absurd h2 (by simp)
    | bool b =>
      unfold errorMessageOf
      rw [h1]
      dsimp only
      rw [h2]
      dsimp only
      rw [if_pos h3]
    | num neg ip fp eneg ed =>
      unfold errorMessageOf
      rw [h1]
      dsimp only
      rw [h2]
      dsimp only
      rw [if_pos h3]
    | str s =>
      unfold errorMessageOf
      rw [h1]
      dsimp only
      rw [h2]
      dsimp only
      rw [if_pos h3]
    | arr xs =>
      unfold errorMessageOf
      rw [h1]
      dsimp only
      rw [h2]
      dsimp only
      rw [if_pos h3]
    | obj ms =>
      unfold errorMessageOf
      rw [h1]
      dsimp only
      rw [h2]
      dsimp only
      rw [if_pos h3]
  · intro v h1 hv hf
    exact errorMessageOf_fallback status body v h1 hv hf
  · intro h1
    unfold errorMessageOf
    rw [h1]
  · intro h1
    unfold errorMessageOf
    rw [h1]

theorem c5_failure_path_witness :
    handleSendModel ("7").data ("9").data [] (displayMsgOf ("42").data ("hi").data)
        500 ("\x7b\"error\":\"rate limited\"\x7d").data [] =
      ([] ++ [displayMsgOf ("42").data ("hi").data]) ++
        [⟨errIdOf ("9").data, Role.assistant,
          errorTurnContent
            (errorMessageOf 500 ("\x7b\"error\":\"rate limited\"\x7d").data)⟩] ∧
    errorMessageOf 500 ("\x7b\"error\":\"rate limited\"\x7d").data =
      jsToString (JsonValue.str ("rate limited").data) ∧
    errorMessageOf 500 (("\x7b\"error\":\"\"\x7d").data) =
      ("Error ").data ++ (toString 500).data ∧
    errorMessageOf 500 (("nope").data) = ("Error ").data ++ (toString 500).data ∧
    errorMessageOf 500 (("null").data) = typeErrorText :=
  ⟨(c5_failure_path ("7").data ("9").data [] (displayMsgOf ("42").data ("hi").data)
      500 ("\x7b\"error\":\"rate limited\"\x7d").data [] (by decide)).1,
   (c5_failure_path ("7").data ("9").data [] (displayMsgOf ("42").data ("hi").data)
      500 ("\x7b\"error\":\"rate limited\"\x7d").data [] (by decide)).2.2.1
     (JsonValue.obj [(("error").data, JsonValue.str ("rate limited").data)])
     (JsonValue.str ("rate limited").data) (by rfl) (by rfl) (by rfl),
   (c5_failure_path ("7").data ("9").data [] (displayMsgOf ("42").data ("hi").data)
      500 (("\x7b\"error\":\"\"\x7d").data) [] (by decide)).2.2.2.1
     (JsonValue.obj [(("error").data, JsonValue.str [])]) (by rfl)
     (fun hnull => JsonValue.noConfusion hnull)
     (fun e he => by
       have h3 : JsonValue.str [] = e :=
         Option.some.inj (show some (JsonValue.str []) = some e from he)
       rw [← h3]
       rfl),
   (c5_failure_path ("7").data ("9").data [] (displayMsgOf ("42").data ("hi").data)
      500 (("nope").data) [] (by decide)).2.2.2.2.1 (by rfl),
   (c5_failure_path ("7").data ("9").data [] (displayMsgOf ("42").data ("hi").data)
      500 (("null").data) [] (by decide)).2.2.2.2.2 (by rfl)⟩

/-- Claim C6, counterexample: a data line written `data:` with no space
after the colon is skipped as unrecognized rather than treated as carrying
its payload: its delta `X` never reaches the transcript, while the same
line with the space does. -/
theorem c6_no_space_line_skipped :
    runSession ("7").data [] (displayMsgOf ("42").data ("hi").data)
        [("data:\x7b\"choices\":[\x7b\"delta\":\x7b\"content\":\"X\"\x7d\x7d]\x7d\n").data] =
      [displayMsgOf ("42").data ("hi").data] ∧
    runSession ("7").data [] (displayMsgOf ("42").data ("hi").data)
        [("data: \x7b\"choices\":[\x7b\"delta\":\x7b\"content\":\"X\"\x7d\x7d]\x7d\n").data] =
      [displayMsgOf ("42").data ("hi").data,
       ⟨aiIdOf ("7").data, Role.assistant, ['X']⟩] := by
  constructor
  · decide
  · decide

/-- Claim C6, amended: only lines beginning with the six characters
`data: ` (colon followed by a mandatory single space) are classified as
data lines, with the payload being everything after that prefix; a line
beginning `data:` without the space is skipped like an unrecognized line. -/
theorem c6_mandatory_space :
    (∀ (nonce : List Char) (acc : StreamAcc) (p rest : List Char) (v : JsonValue)
      (c : Option JsonValue), '\n' ∉ p → (sData ++ p).getLast? ≠ some '\r' →
      jsonParse (jsTrim p) = some v → extractContent v = some c →
      drain nonce acc ((sData ++ p) ++ '\n' :: rest) =
        drain nonce (applyContent nonce acc c) rest) ∧
    (∀ (nonce : List Char) (acc : StreamAcc) (l rest : List Char),
      l.take 5 = ("data:").data → startsWithL sData l = false → '\n' ∉ l →
      l.getLast? ≠ some '\r' →
      drain nonce acc (l ++ '\n' :: rest) = drain nonce acc rest) := by
  constructor
  · intro nonce acc p rest v c h1 h2 h3 h4
    have hst : stripCR (sData ++ p) = sData ++ p := by
      unfold stripCR
      rw [if_neg h2]
    have hsw : startsWithL sData (sData ++ p) = true := startsWithL_self _ _
    have hns : isSkipL (stripCR (sData ++ p)) = false := by
      rw [hst]
      exact isSkipL_false_of_data hsw
    have hdrop : (sData ++ p).drop 6 = p := by
      rw [show (6 : Nat) = sData.length from rfl, List.drop_left]
    have hex : extractOf (stripCR (sData ++ p)) = some c := by
      rw [hst]
      unfold extractOf
      rw [hdrop, h3]
      exact h4
    have hnl : '\n' ∉ sData ++ p := by
      intro hm
      rcases List.mem_append.mp hm with hmem | hmem
      · exact absurd hmem (by decide)
      · exact h1 hmem
    exact drain_content nonce acc rest hnl hns hex
  · intro nonce acc l rest h5 hnsw hnl hcr
    have hst : stripCR l = l := by
      unfold stripCR
      rw [if_neg hcr]
    have hskip : isSkipL l = true := by
      unfold isSkipL
      rw [hnsw]
      simp
    refine drain_skip nonce acc rest hnl ?_
    rw [hst]
    exact hskip

theorem c6_mandatory_space_witness :
    drain ("7").data ⟨[], []⟩
        ((sData ++ ("\x7b\"choices\":[\x7b\"delta\":\x7b\"content\":\"X\"\x7d\x7d]\x7d").data) ++
          '\n' :: []) =
      drain ("7").data
        (applyContent ("7").data ⟨[], []⟩ (some (JsonValue.str ['X']))) [] ∧
    drain ("7").data ⟨[], []⟩
        (("data:\x7b\"choices\":[\x7b\"delta\":\x7b\"content\":\"X\"\x7d\x7d]\x7d").data ++
          '\n' :: []) =
      drain ("7").data ⟨[], []⟩ [] :=
  ⟨c6_mandatory_space.1 ("7").data ⟨[], []⟩
      ("\x7b\"choices\":[\x7b\"delta\":\x7b\"content\":\"X\"\x7d\x7d]\x7d").data []
      (JsonValue.obj [(("choices").data,
        JsonValue.arr [JsonValue.obj [(("delta").data,
          JsonValue.obj [(("content").data, JsonValue.str ['X'])])]])])
      (some (JsonValue.str ['X'])) (by decide) (by decide) (by rfl) (by rfl),
   c6_mandatory_space.2 ("7").data ⟨[], []⟩
      ("data:\x7b\"choices\":[\x7b\"delta\":\x7b\"content\":\"X\"\x7d\x7d]\x7d").data []
      (by rfl) (by rfl) (by decide) (by decide)⟩

/-- Claim C7, counterexample: the data lost at stream end is not bounded by
the last unterminated frame.  In this stream every frame is
newline-terminated (the trailing fragment is empty) and the last line is a
well-formed delta line carrying `X` (third conjunct), yet the final
transcript lacks that delta: the malformed line before it blocks the
pipeline, so whole well-formed terminated frames are silently lost. -/
theorem c7_loss_not_bounded :
    runSession ("7").data [] (displayMsgOf ("42").data ("hi").data)
        [("data: \x7bbad\n").data,
         ("data: \x7b\"choices\":[\x7b\"delta\":\x7b\"content\":\"X\"\x7d\x7d]\x7d\n").data] =
      [displayMsgOf ("42").data ("hi").data] ∧
    tailFrag (joinChunks
        [("data: \x7bbad\n").data,
         ("data: \x7b\"choices\":[\x7b\"delta\":\x7b\"content\":\"X\"\x7d\x7d]\x7d\n").data]) = [] ∧
    extractOf ("data: \x7b\"choices\":[\x7b\"delta\":\x7b\"content\":\"X\"\x7d\x7d]\x7d").data =
      some (some (JsonValue.str ['X'])) := by
  refine ⟨?_, ?_, ?_⟩
  · decide
  · decide
  · rfl

/-- Claim C7, amended: on a sentinel-free stream the session always
completes with a transcript determined by the good prefix of the line
sequence: every line before the first throwing (malformed or null-payload)
data line is reflected, and everything from that line on, together with any
trailing fragment, is silently dropped. -/
theorem c7_drop_from_first_bad_line (nonce : List Char) (prev : List Message) (u : Message)
    (cs : List (List Char)) (hs : noSentB (joinChunks cs) = true) :
    runSession nonce prev u cs =
      (lineRunB nonce (initAcc prev u) (goodLines (rawLines (joinChunks cs)))).1.msgs := by
  rw [runSession_canonical nonce prev u cs hs, lineRunB_goodLines]

theorem c7_drop_from_first_bad_line_witness :
    runSession ("7").data [] (displayMsgOf ("42").data ("hi").data)
        [("data: \x7bbad\n").data,
         ("data: \x7b\"choices\":[\x7b\"delta\":\x7b\"content\":\"X\"\x7d\x7d]\x7d\n").data] =
      (lineRunB ("7").data
        (initAcc [] (displayMsgOf ("42").data ("hi").data))
        (goodLines (rawLines (joinChunks
          [("data: \x7bbad\n").data,
           ("data: \x7b\"choices\":[\x7b\"delta\":\x7b\"content\":\"X\"\x7d\x7d]\x7d\n").data])))).1.msgs :=
  c7_drop_from_first_bad_line ("7").data [] (displayMsgOf ("42").data ("hi").data)
    [("data: \x7bbad\n").data,
     ("data: \x7b\"choices\":[\x7b\"delta\":\x7b\"content\":\"X\"\x7d\x7d]\x7d\n").data]
    (by decide)

/-- Claim C8: processing a comment line (starting with a colon) or a blank
line (empty after trim) leaves the session state, and in particular the
transcript, completely unchanged: draining a buffer that starts with such a
line is the same as draining the buffer without it. -/
theorem c8_comment_blank_no_effect (nonce : List Char) (acc : StreamAcc)
    (raw rest : List Char) (h1 : '\n' ∉ raw)
    (h2 : startsWithL [':'] (stripCR raw) = true ∨ (jsTrim (stripCR raw)).isEmpty = true) :
    drain nonce acc (raw ++ '\n' :: rest) = drain nonce acc rest := by
  refine drain_skip nonce acc rest h1 ?_
  unfold isSkipL
  rcases h2 with h | h
  · rw [h]
    rfl
  · rw [h]
    simp

theorem c8_comment_blank_no_effect_witness :
    drain ("7").data ⟨[], []⟩ ((": keep-alive").data ++ '\n' :: ("rest").data) =
      drain ("7").data ⟨[], []⟩ ("rest").data :=
  c8_comment_blank_no_effect ("7").data ⟨[], []⟩ (": keep-alive").data ("rest").data
    (by decide) (Or.inl (by decide))

/-- Claim C9: reconciliation never crosses session boundaries.  A session
always starts with the displayed user message as the last turn, so the
first delta appends a fresh `ai-` assistant turn at the end; every earlier
turn, whatever its role or origin (an assistant turn of an earlier session,
an error turn), is preserved unchanged, and all deltas of the session land
in the fresh turn. -/
theorem c9_fresh_turn_per_session (nonce : List Char) (prev : List Message)
    (id c : List Char) (ds : List (List Char)) (hne : ds ≠ [])
    (hd : ∀ d ∈ ds, d ≠ []) :
    (foldDeltas nonce (initAcc prev (displayMsgOf id c)) ds).msgs =
      (prev ++ [displayMsgOf id c]) ++
        [⟨aiIdOf nonce, Role.assistant, joinChunks ds⟩] ∧
    ((foldDeltas nonce (initAcc prev (displayMsgOf id c)) ds).msgs).take (prev.length + 1) =
      prev ++ [displayMsgOf id c] ∧
    startsWithL aiPre (aiIdOf nonce) = true := by
  have hmain :
      (foldDeltas nonce (initAcc prev (displayMsgOf id c)) ds).msgs =
        (prev ++ [displayMsgOf id c]) ++
          [⟨aiIdOf nonce, Role.assistant, joinChunks ds⟩] := by
    unfold initAcc
    rw [foldDeltas_fresh nonce prev (displayMsgOf id c) ds (isOpenTurn_user id c) hne hd]
  refine ⟨hmain, ?_, ?_⟩
  · rw [hmain]
    rw [show prev.length + 1 = (prev ++ [displayMsgOf id c]).length by simp]
    exact List.take_left _ _
  · unfold aiIdOf
    exact startsWithL_self _ _

theorem c9_fresh_turn_per_session_witness :
    (foldDeltas ("n").data
        (initAcc [⟨aiIdOf ("old").data, Role.assistant, ("prior").data⟩]
          (displayMsgOf ("1").data ("q").data)) [("d").data]).msgs =
      ([⟨aiIdOf ("old").data, Role.assistant, ("prior").data⟩] ++
          [displayMsgOf ("1").data ("q").data]) ++
        [⟨aiIdOf ("n").data, Role.assistant, joinChunks [("d").data]⟩] ∧
    ((foldDeltas ("n").data
        (initAcc [⟨aiIdOf ("old").data, Role.assistant, ("prior").data⟩]
          (displayMsgOf ("1").data ("q").data)) [("d").data]).msgs).take
        (([⟨aiIdOf ("old").data, Role.assistant, ("prior").data⟩] : List Message).length + 1) =
      [⟨aiIdOf ("old").data, Role.assistant, ("prior").data⟩] ++
        [displayMsgOf ("1").data ("q").data] ∧
    startsWithL aiPre (aiIdOf ("n").data) = true :=
  c9_fresh_turn_per_session ("n").data
    [⟨aiIdOf ("old").data, Role.assistant, ("prior").data⟩] ("1").data ("q").data
    [("d").data] (by decide) (by decide)

/-- Claim C10: a data line whose payload is well-formed JSON in which the
navigated content `choices[0].delta.content` is absent, null, or the empty
string never changes the transcript: the drain either continues on the rest
of the buffer with the same accumulated state (falsy content is a no-op),
or, for a null top-level payload whose property read throws, stalls with
the state untouched; in both cases no new assistant turn is opened. -/
theorem c10_falsy_content_noop (nonce : List Char) (acc : StreamAcc) (l rest : List Char)
    (v : JsonValue) (hnl : '\n' ∉ l) (hcr : stripCR l = l)
    (hdata : startsWithL sData l = true)
    (hp : jsonParse (jsTrim (l.drop 6)) = some v)
    (hc : extractContent v = none ∨ extractContent v = some none ∨
        extractContent v = some (some JsonValue.null) ∨
        extractContent v = some (some (JsonValue.str []))) :
    drain nonce acc (l ++ '\n' :: rest) = drain nonce acc rest ∨
    drain nonce acc (l ++ '\n' :: rest) = (acc, l ++ '\n' :: rest) := by
  have hns : isSkipL (stripCR l) = false := by
    rw [hcr]
    exact isSkipL_false_of_data hdata
  have hd : jsTrim (l.drop 6) ≠ sDone := by
    intro he
    rw [he, jsonParse_sDone] at hp
    exact absurd hp (by simp)
  rcases hc with h | h | h | h
  · right
    have hex : extractOf l = none := by
      unfold extractOf
      rw [hp]
      exact h
    have hfail : lineFailsB (stripCR l) = true := by
      rw [hcr]
      unfold lineFailsB
      rw [hdata, hex]
      simp [hd]
    have hdf := drain_fail nonce acc rest hnl hfail
    rw [hcr] at hdf
    exact hdf
  · left
    have hex : extractOf (stripCR l) = some none := by
      rw [hcr]
      unfold extractOf
      rw [hp]
      exact h
    have hdc := drain_content nonce acc rest hnl hns hex
    rw [show applyContent nonce acc none = acc from rfl] at hdc
    exact hdc
  · left
    have hex : extractOf (stripCR l) = some (some JsonValue.null) := by
      rw [hcr]
      unfold extractOf
      rw [hp]
      exact h
    have hdc := drain_content nonce acc rest hnl hns hex
    rw [show applyContent nonce acc (some JsonValue.null) = acc from rfl] at hdc
    exact hdc
  · left
    have hex : extractOf (stripCR l) = some (some (JsonValue.str [])) := by
      rw [hcr]
      unfold extractOf
      rw [hp]
      exact h
    have hdc := drain_content nonce acc rest hnl hns hex
    rw [show applyContent nonce acc (some (JsonValue.str [])) = acc from rfl] at hdc
    exact hdc

theorem c10_falsy_content_noop_witness :
    (drain ("7").data ⟨[], []⟩
        ((("data: \x7b\"choices\":[\x7b\"delta\":\x7b\"content\":\"\"\x7d\x7d]\x7d").data) ++
          '\n' :: ("rest").data) =
      drain ("7").data ⟨[], []⟩ ("rest").data) ∨
    (drain ("7").data ⟨[], []⟩
        ((("data: \x7b\"choices\":[\x7b\"delta\":\x7b\"content\":\"\"\x7d\x7d]\x7d").data) ++
          '\n' :: ("rest").data) =
      (⟨[], []⟩,
        (("data: \x7b\"choices\":[\x7b\"delta\":\x7b\"content\":\"\"\x7d\x7d]\x7d").data) ++
          '\n' :: ("rest").data)) :=
  c10_falsy_content_noop ("7").data ⟨[], []⟩
    ("data: \x7b\"choices\":[\x7b\"delta\":\x7b\"content\":\"\"\x7d\x7d]\x7d").data
    ("rest").data
    (JsonValue.obj [(("choices").data,
      JsonValue.arr [JsonValue.obj [(("delta").data,
        JsonValue.obj [(("content").data, JsonValue.str [])])]])])
    (by decide) (by rfl) (by rfl) (by rfl)
    (Or.inr (Or.inr (Or.inr (by rfl))))

end MIE
